import Mathlib

/-!
Verification of the resistor color-code utility of the vlab-chatbot repository.

The embedding models the two pure functions `computeResistorColorCode` and
`extractOhmValues` of the chat route module, plus the formatting loop of the
POST handler that consumes them.  JavaScript numbers are modelled as an
inductive `JsNum` (NaN, the two infinities, or a finite value carried as an
exact rational).  On every input relevant to the claims the double-precision
arithmetic of the source performs exactly representable operations, so the
rational model agrees with it; the claims that mention exact arithmetic are
settled in that model.  The two `while` loops of the source are embedded as
well-founded recursive functions (`loopDiv`, `loopMul`) whose termination is
proved from the loop guards, and fueled step-indexed variants (`loopDivF`,
`loopMulF`) witness termination claims.
-/

set_option allowUnsafeReducibility true in
attribute [semireducible] Rat.mul Rat.inv Rat.add Rat.sub Rat.ofScientific

namespace Vlab

/-- A JavaScript `number` for the purposes of this utility: NaN, ±Infinity, or a
finite value modelled as an exact rational. -/
inductive JsNum where
  | nan
  | posInf
  | negInf
  | fin (q : ℚ)
deriving DecidableEq

/-- Source: `const digitColor = ["Black", "Brown", "Red", "Orange", "Yellow",
"Green", "Blue", "Violet", "Grey", "White"]`. -/
def digitColor : List String :=
  ["Black", "Brown", "Red", "Orange", "Yellow", "Green", "Blue", "Violet", "Grey", "White"]

/-- Source: `const multiplierColor = [...]`, the same ten names. -/
def multiplierColor : List String :=
  ["Black", "Brown", "Red", "Orange", "Yellow", "Green", "Blue", "Violet", "Grey", "White"]

/-- Truncation toward zero, as used by the JavaScript `%` operator. -/
def jsTrunc (q : ℚ) : ℤ := if q < 0 then ⌈q⌉ else ⌊q⌋

/-- The JavaScript remainder `a % b`: `a - b * trunc(a / b)`. -/
def jsMod (a b : ℚ) : ℚ := a - b * (jsTrunc (a / b) : ℚ)

/-- Source loop `while (m >= cap) { m /= 10; p++; }`.  The source runs it with
`cap` equal to 100 or 1000; the hypothesis `2 ≤ cap` makes the loop terminate,
and positivity of `m` is threaded through as a subtype so the following
multiplication loop can be entered. -/
def loopDiv (cap : ℚ) (hcap : 2 ≤ cap) : (m : ℚ) → 0 < m → ℤ → {z : ℚ × ℤ // 0 < z.1}
  | m, hm, p =>
    if h : cap ≤ m then loopDiv cap hcap (m / 10) (div_pos hm (by norm_num)) (p + 1)
    else ⟨(m, p), hm⟩
termination_by m _ _ => (⌊m⌋).toNat
decreasing_by
  have h2 : (2 : ℚ) ≤ m := le_trans hcap h
  have hb : m / 10 ≤ m - 1 := by linarith
  have h1 : ⌊m / 10⌋ ≤ ⌊m - 1⌋ := Int.floor_mono hb
  have h3 : ⌊m - 1⌋ = ⌊m⌋ - 1 := Int.floor_sub_one m
  have h4 : (2 : ℤ) ≤ ⌊m⌋ := Int.le_floor.mpr (by exact_mod_cast h2)
  omega

/-- Source loop `while (m < cap) { m *= 10; p--; }`.  Termination needs `0 < m`,
which holds on the only path the source runs it on (`ohms > 0`). -/
def loopMul (cap : ℚ) : (m : ℚ) → 0 < m → ℤ → ℚ × ℤ
  | m, hm, p =>
    if h : m < cap then loopMul cap (m * 10) (mul_pos hm (by norm_num)) (p - 1)
    else (m, p)
termination_by m _ _ => (⌈cap / m⌉).toNat
decreasing_by
  have hx : 1 < cap / m := (one_lt_div hm).mpr h
  have hc2 : (2 : ℤ) ≤ ⌈cap / m⌉ := by
    have hcc : (1 : ℤ) < ⌈cap / m⌉ := Int.lt_ceil.mpr (by exact_mod_cast hx)
    omega
  have hkey : cap / (m * 10) ≤ (⌈cap / m⌉ : ℚ) - 1 := by
    have h1 : cap / m ≤ (⌈cap / m⌉ : ℚ) := Int.le_ceil _
    have h2 : (2 : ℚ) ≤ (⌈cap / m⌉ : ℚ) := by exact_mod_cast hc2
    have h3 : cap / (m * 10) = cap / m / 10 := by ring
    rw [h3]; linarith
  have h4 : ⌈cap / (m * 10)⌉ ≤ ⌈cap / m⌉ - 1 := Int.ceil_le.mpr (by push_cast; linarith)
  omega

/-- The two normalization loops run in sequence, starting from `(ohms, 0)`:
first divide while `≥ dcap`, then multiply while `< mcap`. -/
def normPair (dcap mcap : ℚ) (hd : 2 ≤ dcap) (q : ℚ) (hq : 0 < q) : ℚ × ℤ :=
  loopMul mcap (loopDiv dcap hd q hq 0).val.1 (loopDiv dcap hd q hq 0).property
    (loopDiv dcap hd q hq 0).val.2

/-- Digit extraction and guard of the 4-band branch, applied to the normalized
`(mantissa, exponent)` pair.  Source: `d1_4 = Math.floor(m4 / 10)`,
`d2_4 = Math.floor(m4 % 10)`, `mult4 = p4`, guard
`d1_4 < 0 || d1_4 > 9 || d2_4 < 0 || d2_4 > 9 || mult4 < 0 || mult4 > 9`,
then `[digitColor[d1_4], digitColor[d2_4], multiplierColor[mult4], "Gold (±5%)"]`.
An out-of-range array access would give `undefined` in JavaScript; it is
modelled by `getD` with the default `"undefined"` (the guard makes it
unreachable). -/
def mkFourBand (z : ℚ × ℤ) : Option (List String) :=
  let d1 := ⌊z.1 / 10⌋
  let d2 := ⌊jsMod z.1 10⌋
  let mult := z.2
  if d1 < 0 ∨ 9 < d1 ∨ d2 < 0 ∨ 9 < d2 ∨ mult < 0 ∨ 9 < mult then none
  else some [digitColor.getD d1.toNat "undefined", digitColor.getD d2.toNat "undefined",
    multiplierColor.getD mult.toNat "undefined", "Gold (±5%)"]

/-- Digit extraction and guard of the 5-band branch.  Source:
`d1_5 = Math.floor(m5 / 100) % 10`, `d2_5 = Math.floor(m5 / 10) % 10`,
`d3_5 = Math.floor(m5 % 10)`, `mult5 = p5`, guard
`[d1_5,d2_5,d3_5].some(d => d < 0 || d > 9) || mult5 < 0 || mult5 > 9`.
The `% 10` on the first two digits acts on nonnegative integer-valued floats on
every reachable path, where JavaScript `%` agrees with `Int.emod`. -/
def mkFiveBand (z : ℚ × ℤ) : Option (List String) :=
  let d1 := ⌊z.1 / 100⌋ % 10
  let d2 := ⌊z.1 / 10⌋ % 10
  let d3 := ⌊jsMod z.1 10⌋
  let mult := z.2
  if d1 < 0 ∨ 9 < d1 ∨ d2 < 0 ∨ 9 < d2 ∨ d3 < 0 ∨ 9 < d3 ∨ mult < 0 ∨ 9 < mult then none
  else some [digitColor.getD d1.toNat "undefined", digitColor.getD d2.toNat "undefined",
    digitColor.getD d3.toNat "undefined", multiplierColor.getD mult.toNat "undefined",
    "Gold (±5%)"]

/-- The 4-band half of `computeResistorColorCode`: normalize with caps 100/10,
then extract digits; `none` models the early `return null`. -/
def fourBandOf (q : ℚ) (hq : 0 < q) : Option (List String) :=
  mkFourBand (normPair 100 10 (by norm_num) q hq)

/-- The 5-band half of `computeResistorColorCode`: normalize with caps 1000/100,
then extract digits. -/
def fiveBandOf (q : ℚ) (hq : 0 < q) : Option (List String) :=
  mkFiveBand (normPair 1000 100 (by norm_num) q hq)

/-- Source: `function computeResistorColorCode(ohms)`.  The first guard is
`if (!isFinite(ohms) || ohms <= 0) return null;`; NaN and the infinities fail
`isFinite`.  The function then computes the 4-band representation (returning
null on its guard), then the 5-band one, and returns both. -/
def computeResistorColorCode : JsNum → Option (List String × List String)
  | .nan => none
  | .posInf => none
  | .negInf => none
  | .fin q =>
    if hq : q ≤ 0 then none
    else
      match fourBandOf q (not_le.mp hq) with
      | none => none
      | some fourBand =>
        match fiveBandOf q (not_le.mp hq) with
        | none => none
        | some fiveBand => some (fourBand, fiveBand)

/-- Base-10 logarithm on naturals, by structural recursion on a fuel argument
(fuel `n` suffices for input `n`).  Kernel-computable counterpart of the
normalization loops' exponent. -/
def natLog10F : ℕ → ℕ → ℕ
  | 0, _ => 0
  | f + 1, n => if n < 10 then 0 else natLog10F f (n / 10) + 1

/-- Base-10 floor logarithm of a natural number. -/
def natLog10 (n : ℕ) : ℕ := natLog10F n n

/-- Base-10 ceiling logarithm on naturals, by structural recursion on fuel. -/
def natClog10F : ℕ → ℕ → ℕ
  | 0, _ => 0
  | f + 1, n => if n ≤ 1 then 0 else natClog10F f ((n + 9) / 10) + 1

/-- Base-10 ceiling logarithm of a natural number: least `k` with `n ≤ 10 ^ k`. -/
def natClog10 (n : ℕ) : ℕ := natClog10F n n

/-- The decimal exponent of a positive rational: the unique `e` with
`10 ^ e ≤ q < 10 ^ (e + 1)`.  Kernel-computable; it is what the two
normalization loops of the source compute. -/
def decExp10 (q : ℚ) : ℤ :=
  if 1 ≤ q then (natLog10 ⌊q⌋₊ : ℤ) else -(natClog10 ⌈q⁻¹⌉₊ : ℤ)

/-- Closed form of the 4-band branch: the loops normalize `q` to mantissa
`q / 10 ^ (decExp10 q - 1)` and exponent `decExp10 q - 1`. -/
def fourBandModel (q : ℚ) : Option (List String) :=
  mkFourBand (q / 10 ^ (decExp10 q - 1), decExp10 q - 1)

/-- Closed form of the 5-band branch. -/
def fiveBandModel (q : ℚ) : Option (List String) :=
  mkFiveBand (q / 10 ^ (decExp10 q - 2), decExp10 q - 2)

/-- Closed, kernel-computable form of `computeResistorColorCode` on finite
inputs; proved equal to it in `computeResistorColorCode_fin_eq`. -/
def colorCodeModel (q : ℚ) : Option (List String × List String) :=
  if q ≤ 0 then none
  else
    match fourBandModel q with
    | none => none
    | some fourBand =>
      match fiveBandModel q with
      | none => none
      | some fiveBand => some (fourBand, fiveBand)

/-- Step-indexed version of the division loop: `none` means the fuel ran out
before the loop guard became false. -/
def loopDivF (cap : ℚ) : ℕ → ℚ → ℤ → Option (ℚ × ℤ)
  | 0, m, p => if cap ≤ m then none else some (m, p)
  | f + 1, m, p => if cap ≤ m then loopDivF cap f (m / 10) (p + 1) else some (m, p)

/-- Step-indexed version of the multiplication loop. -/
def loopMulF (cap : ℚ) : ℕ → ℚ → ℤ → Option (ℚ × ℤ)
  | 0, m, p => if m < cap then none else some (m, p)
  | f + 1, m, p => if m < cap then loopMulF cap f (m * 10) (p - 1) else some (m, p)

/-- The template the POST handler pushes for each non-null mapping.  Source:
`` `- ${Math.round(val)} Ω:\n  - 4‑band: ${mapping.fourBand.join(' - ')}\n  - 5‑band: ${mapping.fiveBand.join(' - ')}` ``
(the hyphen in `4‑band`/`5‑band` is U+2011).  `Math.round` rounds half toward
positive infinity, as Mathlib's `round` does. -/
def formatColorLine (val : ℚ) (fourBand fiveBand : List String) : String :=
  "- " ++ toString (round val) ++ " Ω:\n  - 4‑band: " ++ String.intercalate " - " fourBand
    ++ "\n  - 5‑band: " ++ String.intercalate " - " fiveBand

/-- The handler loop: `for (const val of qVals) { const mapping =
computeResistorColorCode(val); if (mapping) { parts.push(...); } }`. -/
def colorParts (vals : List ℚ) : List String :=
  vals.filterMap fun val =>
    (computeResistorColorCode (.fin val)).map fun m => formatColorLine val m.1 m.2

/-- JavaScript `\s` for the characters that can occur here: ASCII whitespace
and no-break space. -/
def jsSpace (c : Char) : Bool :=
  c == ' ' || c == '\t' || c == '\n' || c == '\r' || c == '\x0b' || c == '\x0c' || c == ' '

/-- The optional fractional part `(?:\.\d+)?` of the token regex: a dot must be
followed by at least one digit to be consumed. -/
def matchFrac : List Char → List Char × List Char
  | '.' :: c :: cs =>
    if c.isDigit then ((c :: cs).takeWhile Char.isDigit, (c :: cs).dropWhile Char.isDigit)
    else ([], '.' :: c :: cs)
  | cs => ([], cs)

/-- The optional suffix group `(k|K|M|mega|G|g)?` of the token regex, tried in
alternation order; `""` models an absent group (`m[2] || ''`). -/
def matchSuffix : List Char → String × List Char
  | 'k' :: cs => ("k", cs)
  | 'K' :: cs => ("K", cs)
  | 'M' :: cs => ("M", cs)
  | 'm' :: 'e' :: 'g' :: 'a' :: cs => ("mega", cs)
  | 'G' :: cs => ("G", cs)
  | 'g' :: cs => ("g", cs)
  | cs => ("", cs)

/-- Numeric value of a list of decimal digit characters. -/
def digitsToNat (ds : List Char) : ℕ :=
  ds.foldl (fun a c => 10 * a + (c.toNat - 48)) 0

/-- Exact value of the matched token `\d+(?:\.\d+)?` (the source's
`parseFloat(m[1])`, modelled without floating-point rounding; such a token
always parses to a number, so the source's `isFinite` filter never fires in
this model). -/
def ratOfDigits (ip fp : List Char) : ℚ :=
  (digitsToNat ip : ℚ) + (digitsToNat fp : ℚ) / 10 ^ fp.length

/-- One pass of `text.matchAll(re)` for
`re = /(\d+(?:\.\d+)?)\s*(k|K|M|mega|G|g)?/g`: at each position, a match must
start with a digit; a match consumes the digits, an optional fraction, any
whitespace, and an optional suffix, and scanning resumes after it.  Fuel is
structural (one unit per character position); `scanTokens` supplies enough. -/
def scanAux : ℕ → List Char → List (ℚ × String)
  | 0, _ => []
  | _ + 1, [] => []
  | f + 1, c :: cs =>
    if c.isDigit then
      let ip := (c :: cs).takeWhile Char.isDigit
      let r1 := (c :: cs).dropWhile Char.isDigit
      let fr := matchFrac r1
      let r3 := fr.2.dropWhile jsSpace
      let sf := matchSuffix r3
      (ratOfDigits ip fr.1, sf.1) :: scanAux f sf.2
    else scanAux f cs

/-- All matches of the token regex in a character list. -/
def scanTokens (cs : List Char) : List (ℚ × String) := scanAux cs.length cs

/-- Character-wise lowercasing, JavaScript `toLowerCase` on the ASCII suffixes
captured here. -/
def lowerString (s : String) : String := String.mk (s.data.map Char.toLower)

/-- Source: `const suf = (m[2] || '').toLowerCase(); const factor =
suf === 'k' ? 1e3 : suf === 'm' || suf === 'mega' ? 1e6 : suf === 'g' ? 1e9 : 1;`. -/
def tokenFactor (suf : String) : ℚ :=
  let s := lowerString suf
  if s = "k" then 1000
  else if s = "m" ∨ s = "mega" then 1000000
  else if s = "g" then 1000000000
  else 1

/-- The loop body of `extractOhmValues`: scale each token, skip values already
in the `seen` set, keep first-appearance order. -/
def extractLoop : List (ℚ × String) → List ℚ → List ℚ
  | [], _ => []
  | t :: rest, seen =>
    let val := t.1 * tokenFactor t.2
    if val ∈ seen then extractLoop rest seen
    else val :: extractLoop rest (val :: seen)

/-- Source: `function extractOhmValues(text)`. -/
def extractOhmValues (text : String) : List ℚ :=
  extractLoop (scanTokens text.data) []

/-- The undeduplicated value sequence: every matched token scaled by its
suffix factor, in match order. -/
def rawOhmValues (text : String) : List ℚ :=
  (scanTokens text.data).map fun t => t.1 * tokenFactor t.2

/-- First-occurrence deduplication with an explicit `seen` accumulator. -/
def dedupLoop : List ℚ → List ℚ → List ℚ
  | [], _ => []
  | v :: t, seen =>
    if v ∈ seen then dedupLoop t seen
    else v :: dedupLoop t (v :: seen)

/-- First-occurrence deduplication of a value list. -/
def dedupFirst (l : List ℚ) : List ℚ := dedupLoop l []

/-- Modelled from the spec: position of a color name in the fixed ten-color
table, used to read a band sequence back into a value. -/
def colorIndex (c : String) : Option ℕ :=
  List.findIdx? (fun s => s == c) digitColor

/-- Modelled from the spec: the decoded value of a 4-band sequence — the two
significant digits reassembled and multiplied by ten to the multiplier
exponent. -/
def decode4 : List String → Option ℚ
  | [c1, c2, c3, _t] =>
    match colorIndex c1, colorIndex c2, colorIndex c3 with
    | some a, some b, some m => some (((a : ℚ) * 10 + (b : ℚ)) * 10 ^ m)
    | _, _, _ => none
  | _ => none

/-- Modelled from the spec: the decoded value of a 5-band sequence. -/
def decode5 : List String → Option ℚ
  | [c1, c2, c3, c4, _t] =>
    match colorIndex c1, colorIndex c2, colorIndex c3, colorIndex c4 with
    | some a, some b, some c, some m =>
      some (((a : ℚ) * 100 + (b : ℚ) * 10 + (c : ℚ)) * 10 ^ m)
    | _, _, _, _ => none
  | _ => none

/-! ### Loop characterization -/

/-- Unfolding equation for the division loop. -/
theorem loopDiv_unfold (cap : ℚ) (hcap : 2 ≤ cap) (m : ℚ) (hm : 0 < m) (p : ℤ) :
    loopDiv cap hcap m hm p =
      if _h : cap ≤ m then loopDiv cap hcap (m / 10) (div_pos hm (by norm_num)) (p + 1)
      else ⟨(m, p), hm⟩ := by
  rw [loopDiv]

/-- Unfolding equation for the multiplication loop. -/
theorem loopMul_unfold (cap m : ℚ) (hm : 0 < m) (p : ℤ) :
    loopMul cap m hm p =
      if _h : m < cap then loopMul cap (m * 10) (mul_pos hm (by norm_num)) (p - 1)
      else (m, p) := by
  rw [loopMul]

/-- Each division step decreases the termination measure of `loopDiv`. -/
theorem floorDivFuel (cap m : ℚ) (hcap : 2 ≤ cap) (h : cap ≤ m) :
    (⌊m / 10⌋).toNat < (⌊m⌋).toNat := by
  have h2 : (2 : ℚ) ≤ m := le_trans hcap h
  have hb : m / 10 ≤ m - 1 := by linarith
  have h1 : ⌊m / 10⌋ ≤ ⌊m - 1⌋ := Int.floor_mono hb
  have h3 : ⌊m - 1⌋ = ⌊m⌋ - 1 := Int.floor_sub_one m
  have h4 : (2 : ℤ) ≤ ⌊m⌋ := Int.le_floor.mpr (by exact_mod_cast h2)
  omega

/-- Each multiplication step decreases the termination measure of `loopMul`. -/
theorem ceilMulFuel (cap m : ℚ) (hm : 0 < m) (h : m < cap) :
    (⌈cap / (m * 10)⌉).toNat < (⌈cap / m⌉).toNat := by
  have hx : 1 < cap / m := (one_lt_div hm).mpr h
  have hc2 : (2 : ℤ) ≤ ⌈cap / m⌉ := by
    have hcc : (1 : ℤ) < ⌈cap / m⌉ := Int.lt_ceil.mpr (by exact_mod_cast hx)
    omega
  have hkey : cap / (m * 10) ≤ (⌈cap / m⌉ : ℚ) - 1 := by
    have h1 : cap / m ≤ (⌈cap / m⌉ : ℚ) := Int.le_ceil _
    have h2 : (2 : ℚ) ≤ (⌈cap / m⌉ : ℚ) := by exact_mod_cast hc2
    have h3 : cap / (m * 10) = cap / m / 10 := by ring
    rw [h3]; linarith
  have h4 : ⌈cap / (m * 10)⌉ ≤ ⌈cap / m⌉ - 1 := Int.ceil_le.mpr (by push_cast; linarith)
  omega

/-- What the division loop computes: it divides by 10 some number `k` of times,
stopping as soon as the value drops below `cap`, and if it ran at all the
result is still at least `cap / 10`. -/
theorem loopDiv_spec (cap : ℚ) (hcap : 2 ≤ cap) :
    ∀ (n : ℕ) (m : ℚ) (hm : 0 < m) (p : ℤ), (⌊m⌋).toNat ≤ n →
      ∃ k : ℕ, (loopDiv cap hcap m hm p).val = (m / 10 ^ k, p + k) ∧
        m / 10 ^ k < cap ∧ (k = 0 ∨ cap / 10 ≤ m / 10 ^ k) := by
  intro n
  induction n with
  | zero =>
    intro m hm p hn
    have hm1 : m < 1 := by
      by_contra hc
      push_neg at hc
      have h1 : (1 : ℤ) ≤ ⌊m⌋ := Int.le_floor.mpr (by exact_mod_cast hc)
      omega
    have hnc : ¬ cap ≤ m := by intro hle; linarith
    rw [loopDiv_unfold, dif_neg hnc]
    refine ⟨0, by simp, ?_, Or.inl rfl⟩
    simpa using lt_of_lt_of_le hm1 (by linarith)
  | succ n ih =>
    intro m hm p hn
    rw [loopDiv_unfold]
    by_cases h : cap ≤ m
    · rw [dif_pos h]
      have hm10 : 0 < m / 10 := div_pos hm (by norm_num)
      have hfuel : (⌊m / 10⌋).toNat ≤ n := by
        have := floorDivFuel cap m hcap h
        omega
      obtain ⟨k, hk1, hk2, hk3⟩ := ih (m / 10) hm10 (p + 1) hfuel
      have hdiv : m / 10 / 10 ^ k = m / 10 ^ (k + 1) := by
        rw [div_div, ← pow_succ']
      refine ⟨k + 1, ?_, ?_, Or.inr ?_⟩
      · have hp : (p + 1) + (k : ℤ) = p + ((k + 1 : ℕ) : ℤ) := by push_cast; ring
        rw [hk1, hdiv, hp]
      · rw [← hdiv]; exact hk2
      · rcases hk3 with h0 | hge
        · subst h0
          have hd : cap / 10 ≤ m / 10 := by linarith
          simpa using hd
        · rw [← hdiv]; exact hge
    · rw [dif_neg h]
      refine ⟨0, by simp, ?_, Or.inl rfl⟩
      simpa using not_le.mp h

/-- What the multiplication loop computes: it multiplies by 10 some number `k`
of times, stopping as soon as the value reaches `cap`, and if it ran at all
the result is below `10 * cap`. -/
theorem loopMul_spec (cap : ℚ) :
    ∀ (n : ℕ) (m : ℚ) (hm : 0 < m) (p : ℤ), (⌈cap / m⌉).toNat ≤ n →
      ∃ k : ℕ, loopMul cap m hm p = (m * 10 ^ k, p - k) ∧
        cap ≤ m * 10 ^ k ∧ (k = 0 ∨ m * 10 ^ k < 10 * cap) := by
  intro n
  induction n with
  | zero =>
    intro m hm p hn
    have h0 : ⌈cap / m⌉ ≤ 0 := by omega
    have h1 : cap / m ≤ ((0 : ℤ) : ℚ) := Int.ceil_le.mp h0
    have h2 : cap ≤ 0 := by
      by_contra hcpos
      push_neg at hcpos
      have hd : 0 < cap / m := div_pos hcpos hm
      push_cast at h1
      linarith
    have hnotlt : ¬ m < cap := by intro hlt; linarith
    rw [loopMul_unfold, dif_neg hnotlt]
    exact ⟨0, by simp, by simpa using le_trans h2 hm.le, Or.inl rfl⟩
  | succ n ih =>
    intro m hm p hn
    rw [loopMul_unfold]
    by_cases h : m < cap
    · rw [dif_pos h]
      have hm10 : 0 < m * 10 := mul_pos hm (by norm_num)
      have hfuel : (⌈cap / (m * 10)⌉).toNat ≤ n := by
        have := ceilMulFuel cap m hm h
        omega
      obtain ⟨k, hk1, hk2, hk3⟩ := ih (m * 10) hm10 (p - 1) hfuel
      have hmul : m * 10 * 10 ^ k = m * 10 ^ (k + 1) := by
        rw [pow_succ']; ring
      refine ⟨k + 1, ?_, ?_, Or.inr ?_⟩
      · have hp : (p - 1) - (k : ℤ) = p - ((k + 1 : ℕ) : ℤ) := by push_cast; ring
        rw [hk1, hmul, hp]
      · rw [← hmul]; exact hk2
      · rcases hk3 with h0 | hlt
        · subst h0
          have hd : m * 10 < 10 * cap := by linarith
          simpa using hd
        · rw [← hmul]; exact hlt
    · rw [dif_neg h]
      exact ⟨0, by simp, by simpa using not_lt.mp h, Or.inl rfl⟩

/-- With enough fuel, the step-indexed division loop reaches the exit condition
and returns exactly what the recursive one does. -/
theorem loopDivF_eq (cap : ℚ) (hcap : 2 ≤ cap) :
    ∀ (n : ℕ) (m : ℚ) (hm : 0 < m) (p : ℤ), (⌊m⌋).toNat ≤ n →
      loopDivF cap n m p = some (loopDiv cap hcap m hm p).val := by
  intro n
  induction n with
  | zero =>
    intro m hm p hn
    have hm1 : m < 1 := by
      by_contra hc
      push_neg at hc
      have h1 : (1 : ℤ) ≤ ⌊m⌋ := Int.le_floor.mpr (by exact_mod_cast hc)
      omega
    have hnc : ¬ cap ≤ m := by intro hle; linarith
    rw [loopDiv_unfold, dif_neg hnc]
    simp [loopDivF, hnc]
  | succ n ih =>
    intro m hm p hn
    rw [loopDiv_unfold]
    by_cases h : cap ≤ m
    · rw [dif_pos h]
      have hfuel : (⌊m / 10⌋).toNat ≤ n := by
        have := floorDivFuel cap m hcap h
        omega
      rw [show loopDivF cap (n + 1) m p
          = if cap ≤ m then loopDivF cap n (m / 10) (p + 1) else some (m, p) from rfl,
        if_pos h]
      exact ih (m / 10) (div_pos hm (by norm_num)) (p + 1) hfuel
    · rw [dif_neg h]
      simp [loopDivF, h]

/-- With enough fuel, the step-indexed multiplication loop reaches the exit
condition and returns exactly what the recursive one does. -/
theorem loopMulF_eq (cap : ℚ) :
    ∀ (n : ℕ) (m : ℚ) (hm : 0 < m) (p : ℤ), (⌈cap / m⌉).toNat ≤ n →
      loopMulF cap n m p = some (loopMul cap m hm p) := by
  intro n
  induction n with
  | zero =>
    intro m hm p hn
    have h0 : ⌈cap / m⌉ ≤ 0 := by omega
    have h1 : cap / m ≤ ((0 : ℤ) : ℚ) := Int.ceil_le.mp h0
    have h2 : cap ≤ 0 := by
      by_contra hcpos
      push_neg at hcpos
      have hd : 0 < cap / m := div_pos hcpos hm
      push_cast at h1
      linarith
    have hnotlt : ¬ m < cap := by intro hlt; linarith
    rw [loopMul_unfold, dif_neg hnotlt]
    simp [loopMulF, hnotlt]
  | succ n ih =>
    intro m hm p hn
    rw [loopMul_unfold]
    by_cases h : m < cap
    · rw [dif_pos h]
      have hfuel : (⌈cap / (m * 10)⌉).toNat ≤ n := by
        have := ceilMulFuel cap m hm h
        omega
      rw [show loopMulF cap (n + 1) m p
          = if m < cap then loopMulF cap n (m * 10) (p - 1) else some (m, p) from rfl,
        if_pos h]
      exact ih (m * 10) (mul_pos hm (by norm_num)) (p - 1) hfuel
    · rw [dif_neg h]
      simp [loopMulF, h]

/-! ### The decimal exponent -/

/-- `natLog10F` with enough fuel computes the base-10 floor logarithm. -/
theorem natLog10F_spec :
    ∀ (f n : ℕ), 1 ≤ n → n ≤ f →
      10 ^ natLog10F f n ≤ n ∧ n < 10 ^ (natLog10F f n + 1) := by
  intro f
  induction f with
  | zero => intro n h1 h2; omega
  | succ f ih =>
    intro n h1 h2
    by_cases h : n < 10
    · have e : natLog10F (f + 1) n = 0 := by simp [natLog10F, h]
      rw [e]
      exact ⟨by simpa using h1, by simpa using h⟩
    · push_neg at h
      have e : natLog10F (f + 1) n = natLog10F f (n / 10) + 1 := by
        simp [natLog10F, not_lt.mpr h]
      have hdiv1 : 1 ≤ n / 10 := by omega
      have hdivf : n / 10 ≤ f := by omega
      obtain ⟨hL, hU⟩ := ih (n / 10) hdiv1 hdivf
      rw [e]
      constructor
      · have h10 : 10 ^ natLog10F f (n / 10) * 10 ≤ n / 10 * 10 :=
          Nat.mul_le_mul_right _ hL
        have h11 : n / 10 * 10 ≤ n := Nat.div_mul_le_self n 10
        calc 10 ^ (natLog10F f (n / 10) + 1)
            = 10 ^ natLog10F f (n / 10) * 10 := by rw [pow_succ]
          _ ≤ n := le_trans h10 h11
      · have h12 : n < (n / 10 + 1) * 10 := by omega
        have h13 : n / 10 + 1 ≤ 10 ^ (natLog10F f (n / 10) + 1) := hU
        calc n < (n / 10 + 1) * 10 := h12
          _ ≤ 10 ^ (natLog10F f (n / 10) + 1) * 10 := Nat.mul_le_mul_right _ h13
          _ = 10 ^ (natLog10F f (n / 10) + 1 + 1) := by ring

/-- `natClog10F` of an input at most 1 is zero, whatever the fuel. -/
theorem natClog10F_zero (f m : ℕ) (hm : m ≤ 1) : natClog10F f m = 0 := by
  cases f with
  | zero => rfl
  | succ f => simp [natClog10F, hm]

/-- `natClog10F` with enough fuel computes the base-10 ceiling logarithm. -/
theorem natClog10F_spec :
    ∀ (f n : ℕ), 2 ≤ n → n ≤ f →
      1 ≤ natClog10F f n ∧ n ≤ 10 ^ natClog10F f n ∧ 10 ^ (natClog10F f n - 1) < n := by
  intro f
  induction f with
  | zero => intro n h1 h2; omega
  | succ f ih =>
    intro n h1 h2
    have e : natClog10F (f + 1) n = natClog10F f ((n + 9) / 10) + 1 := by
      simp [natClog10F, show ¬ n ≤ 1 by omega]
    by_cases hm1 : (n + 9) / 10 ≤ 1
    · have e0 : natClog10F f ((n + 9) / 10) = 0 := natClog10F_zero f _ hm1
      rw [e, e0]
      refine ⟨by omega, ?_, by simpa using h1⟩
      have h10 : n ≤ 10 := by omega
      simpa using h10
    · push_neg at hm1
      have hmf : (n + 9) / 10 ≤ f := by omega
      obtain ⟨hk1, hk2, hk3⟩ := ih ((n + 9) / 10) (by omega) hmf
      rw [e]
      refine ⟨by omega, ?_, ?_⟩
      · have h10 : n ≤ 10 * ((n + 9) / 10) := by omega
        calc n ≤ 10 * ((n + 9) / 10) := h10
          _ ≤ 10 * 10 ^ natClog10F f ((n + 9) / 10) := Nat.mul_le_mul_left _ hk2
          _ = 10 ^ (natClog10F f ((n + 9) / 10) + 1) := by rw [pow_succ]; ring
      · have h11 : 10 * ((n + 9) / 10) ≤ n + 9 := by omega
        have h13 : 10 ^ natClog10F f ((n + 9) / 10)
            = 10 * 10 ^ (natClog10F f ((n + 9) / 10) - 1) := by
          have hsub : natClog10F f ((n + 9) / 10) - 1 + 1 = natClog10F f ((n + 9) / 10) := by
            omega
          calc 10 ^ natClog10F f ((n + 9) / 10)
              = 10 ^ (natClog10F f ((n + 9) / 10) - 1 + 1) := by rw [hsub]
            _ = 10 * 10 ^ (natClog10F f ((n + 9) / 10) - 1) := by rw [pow_succ]; ring
        have h14 : 10 ^ natClog10F f ((n + 9) / 10) + 10 ≤ n + 9 := by
          have h15 : 10 ^ (natClog10F f ((n + 9) / 10) - 1) + 1 ≤ (n + 9) / 10 := hk3
          omega
        have hfin : 10 ^ natClog10F f ((n + 9) / 10) < n := by omega
        simpa using hfin

/-- The decimal exponent satisfies its sandwich property. -/
theorem decExp10_spec (q : ℚ) (hq : 0 < q) :
    (10 : ℚ) ^ decExp10 q ≤ q ∧ q < 10 ^ (decExp10 q + 1) := by
  unfold decExp10
  by_cases h1 : 1 ≤ q
  · rw [if_pos h1]
    have hn1 : 1 ≤ ⌊q⌋₊ := Nat.le_floor (by exact_mod_cast h1)
    have hkk : natLog10 ⌊q⌋₊ = natLog10F ⌊q⌋₊ ⌊q⌋₊ := rfl
    obtain ⟨hL, hU⟩ := natLog10F_spec ⌊q⌋₊ ⌊q⌋₊ hn1 le_rfl
    rw [hkk]
    constructor
    · have hfl : ((⌊q⌋₊ : ℕ) : ℚ) ≤ q := Nat.floor_le hq.le
      have hcast : (10 : ℚ) ^ ((natLog10F ⌊q⌋₊ ⌊q⌋₊ : ℕ) : ℤ)
          = ((10 ^ natLog10F ⌊q⌋₊ ⌊q⌋₊ : ℕ) : ℚ) := by
        rw [zpow_natCast]; push_cast; ring
      rw [hcast]
      calc ((10 ^ natLog10F ⌊q⌋₊ ⌊q⌋₊ : ℕ) : ℚ) ≤ ((⌊q⌋₊ : ℕ) : ℚ) := by exact_mod_cast hL
        _ ≤ q := hfl
    · have hup : q < ((⌊q⌋₊ : ℕ) : ℚ) + 1 := Nat.lt_floor_add_one q
      have hstep : ((⌊q⌋₊ : ℕ) : ℚ) + 1 ≤ ((10 ^ (natLog10F ⌊q⌋₊ ⌊q⌋₊ + 1) : ℕ) : ℚ) := by
        exact_mod_cast Nat.succ_le_of_lt hU
      have hcast : (10 : ℚ) ^ (((natLog10F ⌊q⌋₊ ⌊q⌋₊ : ℕ) : ℤ) + 1)
          = ((10 ^ (natLog10F ⌊q⌋₊ ⌊q⌋₊ + 1) : ℕ) : ℚ) := by
        rw [show ((natLog10F ⌊q⌋₊ ⌊q⌋₊ : ℕ) : ℤ) + 1
            = ((natLog10F ⌊q⌋₊ ⌊q⌋₊ + 1 : ℕ) : ℤ) by push_cast; ring, zpow_natCast]
        push_cast; ring
      rw [hcast]
      linarith
  · rw [if_neg h1]
    push_neg at h1
    have hr : 1 < q⁻¹ := one_lt_inv_iff₀.mpr ⟨hq, h1⟩
    have hr0 : 0 < q⁻¹ := zero_lt_one.trans hr
    have hn2 : 2 ≤ ⌈q⁻¹⌉₊ := by
      have hgt : 1 < ⌈q⁻¹⌉₊ := Nat.lt_ceil.mpr (by exact_mod_cast hr)
      omega
    have hkk : natClog10 ⌈q⁻¹⌉₊ = natClog10F ⌈q⁻¹⌉₊ ⌈q⁻¹⌉₊ := rfl
    obtain ⟨hk1, hk2, hk3⟩ := natClog10F_spec ⌈q⁻¹⌉₊ ⌈q⁻¹⌉₊ hn2 le_rfl
    rw [hkk]
    have hq_inv : q = (q⁻¹)⁻¹ := (inv_inv q).symm
    constructor
    · have hr10 : q⁻¹ ≤ ((10 ^ natClog10F ⌈q⁻¹⌉₊ ⌈q⁻¹⌉₊ : ℕ) : ℚ) :=
        le_trans (Nat.le_ceil _) (by exact_mod_cast hk2)
      have hinv : (((10 ^ natClog10F ⌈q⁻¹⌉₊ ⌈q⁻¹⌉₊ : ℕ) : ℚ))⁻¹ ≤ (q⁻¹)⁻¹ :=
        inv_anti₀ hr0 hr10
      calc (10 : ℚ) ^ (-(natClog10F ⌈q⁻¹⌉₊ ⌈q⁻¹⌉₊ : ℤ))
          = (((10 ^ natClog10F ⌈q⁻¹⌉₊ ⌈q⁻¹⌉₊ : ℕ) : ℚ))⁻¹ := by
            rw [zpow_neg, zpow_natCast]; push_cast; ring
        _ ≤ (q⁻¹)⁻¹ := hinv
        _ = q := inv_inv q
    · have hceil : ((⌈q⁻¹⌉₊ : ℕ) : ℚ) < q⁻¹ + 1 := Nat.ceil_lt_add_one hr0.le
      have hlow : ((10 ^ (natClog10F ⌈q⁻¹⌉₊ ⌈q⁻¹⌉₊ - 1) : ℕ) : ℚ) < q⁻¹ := by
        have hle : ((10 ^ (natClog10F ⌈q⁻¹⌉₊ ⌈q⁻¹⌉₊ - 1) : ℕ) : ℚ) + 1 ≤ ((⌈q⁻¹⌉₊ : ℕ) : ℚ) := by
          exact_mod_cast Nat.succ_le_of_lt hk3
        linarith
      have hpos : (0 : ℚ) < ((10 ^ (natClog10F ⌈q⁻¹⌉₊ ⌈q⁻¹⌉₊ - 1) : ℕ) : ℚ) := by positivity
      have hinv : (q⁻¹)⁻¹ < (((10 ^ (natClog10F ⌈q⁻¹⌉₊ ⌈q⁻¹⌉₊ - 1) : ℕ) : ℚ))⁻¹ :=
        inv_strictAnti₀ hpos hlow
      have hexp : ((natClog10F ⌈q⁻¹⌉₊ ⌈q⁻¹⌉₊ - 1 : ℕ) : ℤ) = (natClog10F ⌈q⁻¹⌉₊ ⌈q⁻¹⌉₊ : ℤ) - 1 := by
        omega
      calc q = (q⁻¹)⁻¹ := hq_inv
        _ < (((10 ^ (natClog10F ⌈q⁻¹⌉₊ ⌈q⁻¹⌉₊ - 1) : ℕ) : ℚ))⁻¹ := hinv
        _ = (10 : ℚ) ^ (-(natClog10F ⌈q⁻¹⌉₊ ⌈q⁻¹⌉₊ : ℤ) + 1) := by
            rw [show -(natClog10F ⌈q⁻¹⌉₊ ⌈q⁻¹⌉₊ : ℤ) + 1
                = -((natClog10F ⌈q⁻¹⌉₊ ⌈q⁻¹⌉₊ - 1 : ℕ) : ℤ) by rw [hexp]; ring,
              zpow_neg, zpow_natCast]
            push_cast; ring

/-- The decimal exponent is the unique solution of the sandwich property. -/
theorem decExp10_unique (q : ℚ) (hq : 0 < q) (e : ℤ) (h1 : (10 : ℚ) ^ e ≤ q)
    (h2 : q < 10 ^ (e + 1)) : decExp10 q = e := by
  obtain ⟨hl, hu⟩ := decExp10_spec q hq
  have a1 : (10 : ℚ) ^ e < 10 ^ (decExp10 q + 1) := lt_of_le_of_lt h1 hu
  have a2 : (10 : ℚ) ^ decExp10 q < 10 ^ (e + 1) := lt_of_le_of_lt hl h2
  have b1 : e < decExp10 q + 1 := (zpow_lt_zpow_iff_right₀ (by norm_num)).mp a1
  have b2 : decExp10 q < e + 1 := (zpow_lt_zpow_iff_right₀ (by norm_num)).mp a2
  omega

/-- Lower bounds on the input translate to lower bounds on the exponent. -/
theorem le_decExp10_iff (q : ℚ) (hq : 0 < q) (s : ℤ) :
    s ≤ decExp10 q ↔ (10 : ℚ) ^ s ≤ q := by
  obtain ⟨hl, hu⟩ := decExp10_spec q hq
  constructor
  · intro h
    exact le_trans (zpow_le_zpow_right₀ (by norm_num) h) hl
  · intro h
    have a1 : (10 : ℚ) ^ s < 10 ^ (decExp10 q + 1) := lt_of_le_of_lt h hu
    have b1 : s < decExp10 q + 1 := (zpow_lt_zpow_iff_right₀ (by norm_num)).mp a1
    omega

/-- Upper bounds on the input translate to upper bounds on the exponent. -/
theorem decExp10_le_iff (q : ℚ) (hq : 0 < q) (s : ℤ) :
    decExp10 q ≤ s ↔ q < (10 : ℚ) ^ (s + 1) := by
  obtain ⟨hl, hu⟩ := decExp10_spec q hq
  constructor
  · intro h
    exact lt_of_lt_of_le hu (zpow_le_zpow_right₀ (by norm_num) (by omega))
  · intro h
    have a2 : (10 : ℚ) ^ decExp10 q < 10 ^ (s + 1) := lt_of_le_of_lt hl h
    have b2 : decExp10 q < s + 1 := (zpow_lt_zpow_iff_right₀ (by norm_num)).mp a2
    omega

/-! ### Normalization in closed form -/

/-- The two loops in sequence produce a value in `[mcap, 10 * mcap)` reached
from the input by an integer power of ten. -/
theorem normPair_sandwich (dcap mcap : ℚ) (hd : 2 ≤ dcap) (hrel : dcap = 10 * mcap)
    (q : ℚ) (hq : 0 < q) :
    ∃ p : ℤ, normPair dcap mcap hd q hq = (q / 10 ^ p, p) ∧
      mcap ≤ q / 10 ^ p ∧ q / 10 ^ p < 10 * mcap := by
  obtain ⟨k1, hk1, hk2, hk3⟩ := loopDiv_spec dcap hd (⌊q⌋).toNat q hq 0 le_rfl
  have hm1pos : 0 < q / 10 ^ k1 := div_pos hq (by positivity)
  have key : ∀ (z : {w : ℚ × ℤ // 0 < w.1}), z.val = (q / 10 ^ k1, (0 : ℤ) + k1) →
      loopMul mcap z.val.1 z.property z.val.2
        = loopMul mcap (q / 10 ^ k1) hm1pos ((0 : ℤ) + k1) := by
    rintro ⟨⟨mv, pv⟩, hpos⟩ hzeq
    have e1 : mv = q / 10 ^ k1 := congrArg Prod.fst hzeq
    have e2 : pv = (0 : ℤ) + k1 := congrArg Prod.snd hzeq
    subst e1; subst e2; rfl
  have hnp : normPair dcap mcap hd q hq = loopMul mcap (q / 10 ^ k1) hm1pos ((0 : ℤ) + k1) :=
    key _ hk1
  obtain ⟨k2, hm1, hm2, hm3⟩ :=
    loopMul_spec mcap (⌈mcap / (q / 10 ^ k1)⌉).toNat (q / 10 ^ k1) hm1pos ((0 : ℤ) + k1) le_rfl
  have h10 : (10 : ℚ) ≠ 0 := by norm_num
  have hzp : q / (10 : ℚ) ^ ((k1 : ℤ) - (k2 : ℤ)) = q / 10 ^ (k1 : ℕ) * 10 ^ (k2 : ℕ) := by
    rw [zpow_sub₀ h10, zpow_natCast, zpow_natCast, div_div_eq_mul_div]
    ring
  refine ⟨(k1 : ℤ) - (k2 : ℤ), ?_, ?_, ?_⟩
  · rw [hnp, hm1, hzp]
    simp
  · rw [hzp]; exact hm2
  · rw [hzp]
    rcases hm3 with h0 | hlt
    · subst h0
      have hsmall : q / 10 ^ (k1 : ℕ) < 10 * mcap := by rw [← hrel]; exact hk2
      simpa using hsmall
    · exact hlt

/-- The normalized exponent is the decimal exponent shifted by the number of
significant digits: for `mcap = 10 ^ s`, the loops leave
`(q / 10 ^ (decExp10 q - s), decExp10 q - s)`. -/
theorem normPair_decExp (dcap mcap : ℚ) (hd : 2 ≤ dcap) (hrel : dcap = 10 * mcap) (s : ℤ)
    (hmcap : mcap = (10 : ℚ) ^ s) (q : ℚ) (hq : 0 < q) :
    normPair dcap mcap hd q hq = (q / 10 ^ (decExp10 q - s), decExp10 q - s) := by
  obtain ⟨p, h1, h2, h3⟩ := normPair_sandwich dcap mcap hd hrel q hq
  have h10 : (10 : ℚ) ≠ 0 := by norm_num
  have hppos : (0 : ℚ) < (10 : ℚ) ^ p := zpow_pos (by norm_num) p
  have hlow : (10 : ℚ) ^ (p + s) ≤ q := by
    rw [hmcap, le_div_iff₀ hppos] at h2
    calc (10 : ℚ) ^ (p + s) = 10 ^ s * 10 ^ p := by rw [zpow_add₀ h10]; ring
      _ ≤ q := h2
  have hup : q < (10 : ℚ) ^ (p + s + 1) := by
    rw [hmcap, div_lt_iff₀ hppos] at h3
    calc q < 10 * (10 : ℚ) ^ s * 10 ^ p := h3
      _ = 10 ^ (p + s + 1) := by
          rw [zpow_add₀ h10 (p + s) 1, zpow_add₀ h10 p s, zpow_one]; ring
  have hexp : decExp10 q = p + s := decExp10_unique q hq (p + s) hlow hup
  have hp : p = decExp10 q - s := by omega
  rw [h1, hp]

/-- The 4-band half agrees with its closed form. -/
theorem fourBandOf_model (q : ℚ) (hq : 0 < q) : fourBandOf q hq = fourBandModel q := by
  unfold fourBandOf fourBandModel
  rw [normPair_decExp 100 10 (by norm_num) (by norm_num) 1 (by norm_num) q hq]

/-- The 5-band half agrees with its closed form. -/
theorem fiveBandOf_model (q : ℚ) (hq : 0 < q) : fiveBandOf q hq = fiveBandModel q := by
  unfold fiveBandOf fiveBandModel
  rw [normPair_decExp 1000 100 (by norm_num) (by norm_num) 2 (by norm_num) q hq]

/-- `computeResistorColorCode` on a finite input agrees with the closed,
kernel-computable `colorCodeModel`. -/
theorem computeResistorColorCode_fin_eq (q : ℚ) :
    computeResistorColorCode (.fin q) = colorCodeModel q := by
  unfold computeResistorColorCode colorCodeModel
  dsimp only
  by_cases hq : q ≤ 0
  · rw [dif_pos hq, if_pos hq]
  · rw [dif_neg hq, if_neg hq, fourBandOf_model q (not_le.mp hq),
      fiveBandOf_model q (not_le.mp hq)]

/-! ### Digit ranges -/

/-- The normalized mantissa `q / 10 ^ (decExp10 q - s)` lies in
`[10 ^ s, 10 ^ (s + 1))`. -/
theorem mantissa_bounds (q : ℚ) (hq : 0 < q) (s : ℤ) :
    (10 : ℚ) ^ s ≤ q / 10 ^ (decExp10 q - s) ∧
      q / 10 ^ (decExp10 q - s) < 10 ^ (s + 1) := by
  obtain ⟨hl, hu⟩ := decExp10_spec q hq
  have h10 : (10 : ℚ) ≠ 0 := by norm_num
  have hppos : (0 : ℚ) < (10 : ℚ) ^ (decExp10 q - s) := zpow_pos (by norm_num) _
  constructor
  · rw [le_div_iff₀ hppos]
    calc (10 : ℚ) ^ s * 10 ^ (decExp10 q - s) = 10 ^ decExp10 q := by
          rw [← zpow_add₀ h10]; congr 1; ring
      _ ≤ q := hl
  · rw [div_lt_iff₀ hppos]
    calc q < 10 ^ (decExp10 q + 1) := hu
      _ = (10 : ℚ) ^ (s + 1) * 10 ^ (decExp10 q - s) := by
          rw [← zpow_add₀ h10]; congr 1; ring

/-- The JavaScript remainder by 10 of a positive value lies in `[0, 10)`. -/
theorem jsMod_bounds (m : ℚ) (hm : 0 < m) : 0 ≤ jsMod m 10 ∧ jsMod m 10 < 10 := by
  unfold jsMod jsTrunc
  have hpos : ¬ (m / 10 < 0) := not_lt.mpr (by positivity)
  rw [if_neg hpos]
  have hfl : ((⌊m / 10⌋ : ℤ) : ℚ) ≤ m / 10 := Int.floor_le _
  have hfu : m / 10 < ((⌊m / 10⌋ : ℤ) : ℚ) + 1 := Int.lt_floor_add_one _
  constructor <;> linarith

/-- On a mantissa in `[10, 100)`, the 4-band digit extraction stays in range,
so the guard reduces to the exponent check. -/
theorem mkFourBand_none_iff (m : ℚ) (e : ℤ) (h1 : 10 ≤ m) (h2 : m < 100) :
    mkFourBand (m, e) = none ↔ (e < 0 ∨ 9 < e) := by
  have hm : 0 < m := by linarith
  have ha : 1 ≤ ⌊m / 10⌋ := Int.le_floor.mpr (by push_cast; linarith)
  have hb : ⌊m / 10⌋ < 10 := Int.floor_lt.mpr (by push_cast; linarith)
  obtain ⟨hc, hd⟩ := jsMod_bounds m hm
  have hd2a : 0 ≤ ⌊jsMod m 10⌋ := Int.floor_nonneg.mpr hc
  have hd2b : ⌊jsMod m 10⌋ < 10 := Int.floor_lt.mpr (by push_cast; linarith)
  simp only [mkFourBand]
  constructor
  · intro hnone
    by_contra hrange
    push_neg at hrange
    rw [if_neg (by push_neg; omega)] at hnone
    simp at hnone
  · intro he
    rw [if_pos (by omega)]

/-- On a mantissa in `[100, 1000)`, the 5-band digit extraction stays in range,
so the guard reduces to the exponent check. -/
theorem mkFiveBand_none_iff (m : ℚ) (e : ℤ) (h1 : 100 ≤ m) (_h2 : m < 1000) :
    mkFiveBand (m, e) = none ↔ (e < 0 ∨ 9 < e) := by
  have hm : 0 < m := by linarith
  have ha1 : 0 ≤ ⌊m / 100⌋ % 10 := Int.emod_nonneg _ (by norm_num)
  have ha2 : ⌊m / 100⌋ % 10 < 10 := Int.emod_lt_of_pos _ (by norm_num)
  have hb1 : 0 ≤ ⌊m / 10⌋ % 10 := Int.emod_nonneg _ (by norm_num)
  have hb2 : ⌊m / 10⌋ % 10 < 10 := Int.emod_lt_of_pos _ (by norm_num)
  obtain ⟨hc, hd⟩ := jsMod_bounds m hm
  have hd3a : 0 ≤ ⌊jsMod m 10⌋ := Int.floor_nonneg.mpr hc
  have hd3b : ⌊jsMod m 10⌋ < 10 := Int.floor_lt.mpr (by push_cast; linarith)
  simp only [mkFiveBand]
  constructor
  · intro hnone
    by_contra hrange
    push_neg at hrange
    rw [if_neg (by push_neg; omega)] at hnone
    simp at hnone
  · intro he
    rw [if_pos (by omega)]

/-- For positive `q`, the 4-band branch fails exactly when the decimal exponent
leaves `[1, 10]`. -/
theorem fourBandModel_none_iff (q : ℚ) (hq : 0 < q) :
    fourBandModel q = none ↔ (decExp10 q < 1 ∨ 10 < decExp10 q) := by
  obtain ⟨hl, hu⟩ := mantissa_bounds q hq 1
  have e1 : (10 : ℚ) ^ (1 : ℤ) = 10 := by norm_num
  have e2 : (10 : ℚ) ^ (1 + 1 : ℤ) = 100 := by norm_num
  rw [e1] at hl
  rw [e2] at hu
  unfold fourBandModel
  rw [mkFourBand_none_iff _ _ hl hu]
  omega

/-- For positive `q`, the 5-band branch fails exactly when the decimal exponent
leaves `[2, 11]`. -/
theorem fiveBandModel_none_iff (q : ℚ) (hq : 0 < q) :
    fiveBandModel q = none ↔ (decExp10 q < 2 ∨ 11 < decExp10 q) := by
  obtain ⟨hl, hu⟩ := mantissa_bounds q hq 2
  have e1 : (10 : ℚ) ^ (2 : ℤ) = 100 := by norm_num
  have e2 : (10 : ℚ) ^ (2 + 1 : ℤ) = 1000 := by norm_num
  rw [e1] at hl
  rw [e2] at hu
  unfold fiveBandModel
  rw [mkFiveBand_none_iff _ _ hl hu]
  omega

/-- For positive `q`, the whole computation fails exactly when `q < 100` or
`10 ^ 11 ≤ q`. -/
theorem colorCodeModel_none_iff (q : ℚ) (hq : 0 < q) :
    colorCodeModel q = none ↔ (q < 100 ∨ (100000000000 : ℚ) ≤ q) := by
  have hq0 : ¬ q ≤ 0 := not_le.mpr hq
  have hr1 : (2 : ℤ) ≤ decExp10 q ↔ (100 : ℚ) ≤ q := by
    have h := le_decExp10_iff q hq 2
    rw [show (10 : ℚ) ^ (2 : ℤ) = 100 by norm_num] at h
    exact h
  have hr2 : decExp10 q ≤ (10 : ℤ) ↔ q < 100000000000 := by
    have h := decExp10_le_iff q hq 10
    rw [show (10 : ℚ) ^ (10 + 1 : ℤ) = 100000000000 by norm_num] at h
    exact h
  have h45 : colorCodeModel q = none ↔ (fourBandModel q = none ∨ fiveBandModel q = none) := by
    unfold colorCodeModel
    rw [if_neg hq0]
    rcases h4 : fourBandModel q with _ | f
    · simp
    · rcases h5 : fiveBandModel q with _ | v
      · simp
      · simp
  rw [h45, fourBandModel_none_iff q hq, fiveBandModel_none_iff q hq]
  constructor
  · intro h
    by_contra hc
    push_neg at hc
    obtain ⟨hc1, hc2⟩ := hc
    have d1 := hr1.mpr hc1
    have d2 := hr2.mpr hc2
    omega
  · intro h
    by_contra hc
    push_neg at hc
    obtain ⟨⟨hc1, hc2⟩, hc3, hc4⟩ := hc
    have e1 := hr1.mp (by omega)
    have e2 := hr2.mp (by omega)
    rcases h with h | h <;> linarith

/-! ### Band shape -/

/-- A successful 4-band extraction always has the literal 4-entry shape, with
all three table indices in `[0, 9]`. -/
theorem mkFourBand_some (z : ℚ × ℤ) (l : List String) (h : mkFourBand z = some l) :
    ∃ d1 d2 : ℤ, 0 ≤ d1 ∧ d1 ≤ 9 ∧ 0 ≤ d2 ∧ d2 ≤ 9 ∧ 0 ≤ z.2 ∧ z.2 ≤ 9 ∧
      l = [digitColor.getD d1.toNat "undefined", digitColor.getD d2.toNat "undefined",
        multiplierColor.getD z.2.toNat "undefined", "Gold (±5%)"] := by
  simp only [mkFourBand] at h
  by_cases hcond : (⌊z.1 / 10⌋ < 0 ∨ 9 < ⌊z.1 / 10⌋ ∨ ⌊jsMod z.1 10⌋ < 0 ∨
      9 < ⌊jsMod z.1 10⌋ ∨ z.2 < 0 ∨ 9 < z.2)
  · rw [if_pos hcond] at h
    simp at h
  · rw [if_neg hcond] at h
    push_neg at hcond
    obtain ⟨c1, c2, c3, c4, c5, c6⟩ := hcond
    exact ⟨⌊z.1 / 10⌋, ⌊jsMod z.1 10⌋, c1, c2, c3, c4, c5, c6,
      (Option.some_injective _ h).symm⟩

/-- A successful 5-band extraction always has the literal 5-entry shape, with
all four table indices in `[0, 9]`. -/
theorem mkFiveBand_some (z : ℚ × ℤ) (l : List String) (h : mkFiveBand z = some l) :
    ∃ d1 d2 d3 : ℤ, 0 ≤ d1 ∧ d1 ≤ 9 ∧ 0 ≤ d2 ∧ d2 ≤ 9 ∧ 0 ≤ d3 ∧ d3 ≤ 9 ∧
      0 ≤ z.2 ∧ z.2 ≤ 9 ∧
      l = [digitColor.getD d1.toNat "undefined", digitColor.getD d2.toNat "undefined",
        digitColor.getD d3.toNat "undefined", multiplierColor.getD z.2.toNat "undefined",
        "Gold (±5%)"] := by
  simp only [mkFiveBand] at h
  by_cases hcond : (⌊z.1 / 100⌋ % 10 < 0 ∨ 9 < ⌊z.1 / 100⌋ % 10 ∨ ⌊z.1 / 10⌋ % 10 < 0 ∨
      9 < ⌊z.1 / 10⌋ % 10 ∨ ⌊jsMod z.1 10⌋ < 0 ∨ 9 < ⌊jsMod z.1 10⌋ ∨ z.2 < 0 ∨ 9 < z.2)
  · rw [if_pos hcond] at h
    simp at h
  · rw [if_neg hcond] at h
    push_neg at hcond
    obtain ⟨c1, c2, c3, c4, c5, c6, c7, c8⟩ := hcond
    exact ⟨⌊z.1 / 100⌋ % 10, ⌊z.1 / 10⌋ % 10, ⌊jsMod z.1 10⌋,
      c1, c2, c3, c4, c5, c6, c7, c8, (Option.some_injective _ h).symm⟩

/-- A successful run of the model decomposes into its two band halves. -/
theorem colorCodeModel_some (q : ℚ) (f v : List String)
    (h : colorCodeModel q = some (f, v)) :
    fourBandModel q = some f ∧ fiveBandModel q = some v := by
  unfold colorCodeModel at h
  by_cases hq : q ≤ 0
  · rw [if_pos hq] at h
    simp at h
  · rw [if_neg hq] at h
    rcases h4 : fourBandModel q with _ | f4
    · rw [h4] at h; simp at h
    · rw [h4] at h
      rcases h5 : fiveBandModel q with _ | v5
      · rw [h5] at h; simp at h
      · rw [h5] at h
        simp only [Option.some.injEq, Prod.mk.injEq] at h
        obtain ⟨hf, hv⟩ := h
        rw [hf, hv]
        exact ⟨rfl, rfl⟩

/-- Every in-range lookup in the ten-color table is one of the ten colors. -/
theorem getD_mem_digitColor : ∀ n : ℕ, n < 10 → digitColor.getD n "undefined" ∈ digitColor := by
  decide

/-- Every in-range lookup in the multiplier table is one of the ten colors
(the two tables are the same list). -/
theorem getD_mem_multiplierColor :
    ∀ n : ℕ, n < 10 → multiplierColor.getD n "undefined" ∈ digitColor := by
  decide

/-! ### Extraction helpers -/

/-- Every token produced by the scanner carries a nonnegative parsed number. -/
theorem scanAux_nonneg : ∀ (f : ℕ) (cs : List Char), ∀ t ∈ scanAux f cs, 0 ≤ t.1 := by
  intro f
  induction f with
  | zero => intro cs t ht; simp [scanAux] at ht
  | succ f ih =>
    intro cs t ht
    cases cs with
    | nil => simp [scanAux] at ht
    | cons c rest =>
      simp only [scanAux] at ht
      by_cases hd : c.isDigit
      · rw [if_pos hd] at ht
        rcases List.mem_cons.mp ht with heq | hmem
        · rw [heq]
          show (0 : ℚ) ≤ ratOfDigits _ _
          unfold ratOfDigits
          positivity
        · exact ih _ t hmem
      · rw [if_neg hd] at ht
        exact ih _ t ht

/-- Every suffix factor is positive. -/
theorem tokenFactor_pos (s : String) : 0 < tokenFactor s := by
  unfold tokenFactor
  dsimp only
  split_ifs <;> norm_num

/-- Membership in the dedup loop output: kept exactly the values occurring in
the input and not yet seen. -/
theorem dedupLoop_mem : ∀ (l seen : List ℚ) (v : ℚ),
    v ∈ dedupLoop l seen ↔ (v ∈ l ∧ v ∉ seen) := by
  intro l
  induction l with
  | nil => intro seen v; simp [dedupLoop]
  | cons a t ih =>
    intro seen v
    simp only [dedupLoop]
    by_cases h : a ∈ seen
    · rw [if_pos h, ih]
      constructor
      · rintro ⟨hv, hs⟩
        exact ⟨List.mem_cons_of_mem _ hv, hs⟩
      · rintro ⟨hv, hs⟩
        rcases List.mem_cons.mp hv with rfl | hv
        · exact absurd h hs
        · exact ⟨hv, hs⟩
    · rw [if_neg h]
      constructor
      · intro hv
        rcases List.mem_cons.mp hv with rfl | hv
        · exact ⟨List.mem_cons_self _ _, h⟩
        · obtain ⟨h1, h2⟩ := (ih (a :: seen) v).mp hv
          have h3 : v ∉ seen := fun hc => h2 (List.mem_cons_of_mem _ hc)
          exact ⟨List.mem_cons_of_mem _ h1, h3⟩
      · rintro ⟨hv, hs⟩
        rcases List.mem_cons.mp hv with rfl | hv
        · exact List.mem_cons_self _ _
        · by_cases hva : v = a
          · rw [hva]; exact List.mem_cons_self _ _
          · apply List.mem_cons_of_mem
            refine (ih (a :: seen) v).mpr ⟨hv, ?_⟩
            intro hc
            rcases List.mem_cons.mp hc with h1 | h1
            · exact hva h1
            · exact hs h1

/-- The dedup loop output is a sublist of its input. -/
theorem dedupLoop_sublist : ∀ (l seen : List ℚ), List.Sublist (dedupLoop l seen) l := by
  intro l
  induction l with
  | nil => intro seen; simp [dedupLoop]
  | cons a t ih =>
    intro seen
    simp only [dedupLoop]
    by_cases h : a ∈ seen
    · rw [if_pos h]
      exact List.Sublist.cons a (ih seen)
    · rw [if_neg h]
      exact List.Sublist.cons₂ a (ih (a :: seen))

/-- The dedup loop output has no duplicates. -/
theorem dedupLoop_nodup : ∀ (l seen : List ℚ), (dedupLoop l seen).Nodup := by
  intro l
  induction l with
  | nil => intro seen; simp [dedupLoop]
  | cons a t ih =>
    intro seen
    simp only [dedupLoop]
    by_cases h : a ∈ seen
    · rw [if_pos h]; exact ih seen
    · rw [if_neg h]
      refine List.nodup_cons.mpr ⟨?_, ih (a :: seen)⟩
      intro hmem
      exact ((dedupLoop_mem t (a :: seen) a).mp hmem).2 (List.mem_cons_self _ _)

/-- The extraction loop is the dedup loop over the scaled token values. -/
theorem extractLoop_eq_dedup : ∀ (toks : List (ℚ × String)) (seen : List ℚ),
    extractLoop toks seen = dedupLoop (toks.map fun t => t.1 * tokenFactor t.2) seen := by
  intro toks
  induction toks with
  | nil => intro seen; rfl
  | cons t rest ih =>
    intro seen
    simp only [extractLoop, List.map_cons, dedupLoop]
    by_cases h : t.1 * tokenFactor t.2 ∈ seen
    · rw [if_pos h, if_pos h, ih]
    · rw [if_neg h, if_neg h, ih]

/-! ### Claims -/

/-- C1 counterexample: the claim's 5-band sequence for 220 is wrong — the
multiplier band of `220 = 220 × 10^0` is Black, not Brown, so the result is
not the claimed pair. -/
theorem C1_counterexample :
    computeResistorColorCode (.fin 220) ≠
      some (["Red", "Red", "Brown", "Gold (±5%)"],
        ["Red", "Red", "Black", "Brown", "Gold (±5%)"]) := by
  rw [computeResistorColorCode_fin_eq]
  decide

/-- C1 (amended): for input 220 the result is non-null with 4-band sequence
`[Red, Red, Brown, "Gold (±5%)"]` and 5-band sequence
`[Red, Red, Black, Black, "Gold (±5%)"]` (multiplier `10^0` = Black). -/
theorem C1_theorem :
    computeResistorColorCode (.fin 220) =
      some (["Red", "Red", "Brown", "Gold (±5%)"],
        ["Red", "Red", "Black", "Black", "Gold (±5%)"]) := by
  rw [computeResistorColorCode_fin_eq]
  decide

/-- C2 counterexample: the claim asserts a non-null result for every listed
value including 1, but `colorCode(1)` is null (its 5-band exponent is
negative). -/
theorem C2_counterexample : computeResistorColorCode (.fin 1) = none := by
  rw [computeResistorColorCode_fin_eq]
  decide

/-- C2 (amended): for every listed value that is at least 100, the result is
non-null and both band sequences decode — significant digits reassembled and
multiplied by ten to the multiplier exponent — exactly to the input; the
listed values 1, 10 and 47 instead give null. -/
theorem C2_theorem :
    (∀ v ∈ ([220, 330, 1000, 2200, 4700, 10000, 100000, 1000000] : List ℚ),
      ∃ f b, computeResistorColorCode (.fin v) = some (f, b) ∧
        decode4 f = some v ∧ decode5 b = some v) ∧
    (∀ v ∈ ([1, 10, 47] : List ℚ), computeResistorColorCode (.fin v) = none) := by
  constructor
  · intro v hv
    simp only [List.mem_cons, List.not_mem_nil, or_false] at hv
    rcases hv with rfl | rfl | rfl | rfl | rfl | rfl | rfl | rfl
    · exact ⟨["Red", "Red", "Brown", "Gold (±5%)"],
        ["Red", "Red", "Black", "Black", "Gold (±5%)"],
        by rw [computeResistorColorCode_fin_eq]; decide, by decide, by decide⟩
    · exact ⟨["Orange", "Orange", "Brown", "Gold (±5%)"],
        ["Orange", "Orange", "Black", "Black", "Gold (±5%)"],
        by rw [computeResistorColorCode_fin_eq]; decide, by decide, by decide⟩
    · exact ⟨["Brown", "Black", "Red", "Gold (±5%)"],
        ["Brown", "Black", "Black", "Brown", "Gold (±5%)"],
        by rw [computeResistorColorCode_fin_eq]; decide, by decide, by decide⟩
    · exact ⟨["Red", "Red", "Red", "Gold (±5%)"],
        ["Red", "Red", "Black", "Brown", "Gold (±5%)"],
        by rw [computeResistorColorCode_fin_eq]; decide, by decide, by decide⟩
    · exact ⟨["Yellow", "Violet", "Red", "Gold (±5%)"],
        ["Yellow", "Violet", "Black", "Brown", "Gold (±5%)"],
        by rw [computeResistorColorCode_fin_eq]; decide, by decide, by decide⟩
    · exact ⟨["Brown", "Black", "Orange", "Gold (±5%)"],
        ["Brown", "Black", "Black", "Red", "Gold (±5%)"],
        by rw [computeResistorColorCode_fin_eq]; decide, by decide, by decide⟩
    · exact ⟨["Brown", "Black", "Yellow", "Gold (±5%)"],
        ["Brown", "Black", "Black", "Orange", "Gold (±5%)"],
        by rw [computeResistorColorCode_fin_eq]; decide, by decide, by decide⟩
    · exact ⟨["Brown", "Black", "Green", "Gold (±5%)"],
        ["Brown", "Black", "Black", "Yellow", "Gold (±5%)"],
        by rw [computeResistorColorCode_fin_eq]; decide, by decide, by decide⟩
  · intro v hv
    simp only [List.mem_cons, List.not_mem_nil, or_false] at hv
    rcases hv with rfl | rfl | rfl <;> (rw [computeResistorColorCode_fin_eq]; decide)

/-- C2 witness: the amended claim applied at 220. -/
theorem C2_witness :
    ∃ f b, computeResistorColorCode (.fin 220) = some (f, b) ∧
      decode4 f = some 220 ∧ decode5 b = some 220 :=
  C2_theorem.1 220 (by decide)

/-- C3 counterexample: at the claimed instance 1, the whole result is indeed
null, but contrary to the claim no valid 4-band representation exists — the
4-band half itself already fails (its exponent is -1). -/
theorem C3_counterexample :
    computeResistorColorCode (.fin 1) = none ∧ fourBandOf 1 one_pos = none := by
  constructor
  · rw [computeResistorColorCode_fin_eq]; decide
  · rw [fourBandOf_model 1 one_pos]; decide

/-- C3 (amended): for positive `q` the result is non-null exactly when
`100 ≤ q < 10^11`; every positive `q` below 100 gives null, where for
`10 ≤ q < 100` (including 10 and 47) the 4-band half is valid and only the
5-band exponent goes negative, while for `q < 10` (including 1) the 4-band
exponent itself is already negative; the return type allows no partial
(4-band-only) result. -/
theorem C3_theorem (q : ℚ) (hq : 0 < q) :
    (computeResistorColorCode (.fin q) ≠ none ↔ (100 ≤ q ∧ q < 100000000000)) ∧
    (q < 100 → computeResistorColorCode (.fin q) = none) ∧
    (10 ≤ q → q < 100 → fourBandOf q hq ≠ none ∧ fiveBandOf q hq = none) ∧
    (q < 10 → fourBandOf q hq = none) := by
  have hfin := computeResistorColorCode_fin_eq q
  have hnone := colorCodeModel_none_iff q hq
  refine ⟨?_, ?_, ?_, ?_⟩
  · rw [hfin, Ne, hnone]
    constructor
    · intro hna
      push_neg at hna
      exact hna
    · intro hand
      push_neg
      exact hand
  · intro hlt
    rw [hfin]
    exact hnone.mpr (Or.inl hlt)
  · intro h10 h100
    have hd1 : (1 : ℤ) ≤ decExp10 q := by
      have h := le_decExp10_iff q hq 1
      rw [show (10 : ℚ) ^ (1 : ℤ) = 10 by norm_num] at h
      exact h.mpr h10
    have hd2 : decExp10 q ≤ 1 := by
      have h := decExp10_le_iff q hq 1
      rw [show (10 : ℚ) ^ (1 + 1 : ℤ) = 100 by norm_num] at h
      exact h.mpr h100
    constructor
    · rw [fourBandOf_model q hq]
      intro hc
      have := (fourBandModel_none_iff q hq).mp hc
      omega
    · rw [fiveBandOf_model q hq]
      exact (fiveBandModel_none_iff q hq).mpr (Or.inl (by omega))
  · intro hlt10
    have hd0 : decExp10 q ≤ 0 := by
      have h := decExp10_le_iff q hq 0
      rw [show (10 : ℚ) ^ (0 + 1 : ℤ) = 10 by norm_num] at h
      exact h.mpr hlt10
    rw [fourBandOf_model q hq]
    exact (fourBandModel_none_iff q hq).mpr (Or.inl (by omega))

/-- C3 witness: the amended claim applied at 47. -/
theorem C3_witness :
    (computeResistorColorCode (.fin 47) ≠ none ↔ ((100 : ℚ) ≤ 47 ∧ (47 : ℚ) < 100000000000)) ∧
    ((47 : ℚ) < 100 → computeResistorColorCode (.fin 47) = none) ∧
    ((10 : ℚ) ≤ 47 → (47 : ℚ) < 100 →
      fourBandOf 47 (by norm_num) ≠ none ∧ fiveBandOf 47 (by norm_num) = none) ∧
    ((47 : ℚ) < 10 → fourBandOf 47 (by norm_num) = none) :=
  C3_theorem 47 (by norm_num)

/-- C4 counterexample: the claim says `colorCode(10^10)` is null, but the code
returns a non-null result there — `10^10` normalizes to mantissa 10 with the
single-digit multiplier 9. -/
theorem C4_counterexample : computeResistorColorCode (.fin (10 ^ 10)) ≠ none := by
  rw [computeResistorColorCode_fin_eq]
  decide

/-- C4 (amended): the result is null for every positive value whose band
exponents leave the single-digit range — that is, below 100 or at or above
`10^11`; in particular `colorCode(0.001)` and `colorCode(10^11)` are null,
while `colorCode(10^10)` is non-null (its 4-band multiplier exponent is 9). -/
theorem C4_theorem (q : ℚ) (hq : 0 < q) :
    ((q < 100 ∨ (100000000000 : ℚ) ≤ q) → computeResistorColorCode (.fin q) = none) ∧
    computeResistorColorCode (.fin (1 / 1000)) = none ∧
    computeResistorColorCode (.fin (10 ^ 11)) = none ∧
    computeResistorColorCode (.fin (10 ^ 10)) ≠ none := by
  refine ⟨?_, ?_, ?_, ?_⟩
  · intro hrange
    rw [computeResistorColorCode_fin_eq]
    exact (colorCodeModel_none_iff q hq).mpr hrange
  · rw [computeResistorColorCode_fin_eq]; decide
  · rw [computeResistorColorCode_fin_eq]; decide
  · rw [computeResistorColorCode_fin_eq]; decide

/-- C4 witness: the amended claim applied at 1/2 (an out-of-range value). -/
theorem C4_witness : computeResistorColorCode (.fin (1 / 2)) = none :=
  (C4_theorem (1 / 2) (by norm_num)).1 (by norm_num)

/-- C5: every non-finite or non-positive input — NaN, the infinities, zero and
negative values — yields null; the total Lean embedding returns rather than
throws, so the condition is signaled solely by the null result. -/
theorem C5_theorem :
    (∀ x : JsNum,
      (x = .nan ∨ x = .posInf ∨ x = .negInf ∨ ∃ q, x = .fin q ∧ q ≤ 0) →
        computeResistorColorCode x = none) ∧
    computeResistorColorCode .nan = none ∧
    computeResistorColorCode (.fin 0) = none ∧
    computeResistorColorCode (.fin (-5)) = none := by
  refine ⟨?_, rfl, by decide, by decide⟩
  intro x hx
  rcases hx with rfl | rfl | rfl | ⟨q, rfl, hq⟩
  · rfl
  · rfl
  · rfl
  · exact dif_pos hq

/-- C5 witness: the claim applied at the finite non-positive input -5. -/
theorem C5_witness : computeResistorColorCode (.fin (-5)) = none :=
  C5_theorem.1 (.fin (-5)) (Or.inr (Or.inr (Or.inr ⟨-5, rfl, by norm_num⟩)))

/-- C6: the two example extractions hold, and in general `extractOhmValues` is
the first-occurrence deduplication of the scaled token values — a duplicate-free
sublist of the raw value sequence (so order is preserved) containing exactly the
values that occur in it. -/
theorem C6_theorem :
    extractOhmValues "resistor of 4.7k and 220 ohm" = [4700, 220] ∧
    extractOhmValues "220 220 ohm" = [220] ∧
    (∀ text : String, extractOhmValues text = dedupFirst (rawOhmValues text)) ∧
    (∀ l : List ℚ, (dedupFirst l).Nodup ∧ List.Sublist (dedupFirst l) l ∧
      (∀ v : ℚ, v ∈ dedupFirst l ↔ v ∈ l)) := by
  refine ⟨by decide, by decide, ?_, ?_⟩
  · intro text
    unfold extractOhmValues dedupFirst rawOhmValues
    exact extractLoop_eq_dedup _ []
  · intro l
    refine ⟨dedupLoop_nodup l [], dedupLoop_sublist l [], ?_⟩
    intro v
    unfold dedupFirst
    rw [dedupLoop_mem]
    simp

/-- C7: every non-null result has exactly 4 and 5 entries, each entry is one of
the ten fixed color names or the fixed tolerance string, and each sequence ends
with the tolerance string. -/
theorem C7_theorem (x : JsNum) (f v : List String)
    (h : computeResistorColorCode x = some (f, v)) :
    f.length = 4 ∧ v.length = 5 ∧
    (∀ s ∈ f, s ∈ digitColor ∨ s = "Gold (±5%)") ∧
    (∀ s ∈ v, s ∈ digitColor ∨ s = "Gold (±5%)") ∧
    f.getLast? = some "Gold (±5%)" ∧ v.getLast? = some "Gold (±5%)" := by
  cases x with
  | nan => simp [computeResistorColorCode] at h
  | posInf => simp [computeResistorColorCode] at h
  | negInf => simp [computeResistorColorCode] at h
  | fin q =>
    rw [computeResistorColorCode_fin_eq] at h
    obtain ⟨h4, h5⟩ := colorCodeModel_some q f v h
    unfold fourBandModel at h4
    unfold fiveBandModel at h5
    obtain ⟨d1, d2, b1, b2, b3, b4, b5, b6, hf⟩ := mkFourBand_some _ f h4
    obtain ⟨e1, e2, e3, c1, c2, c3, c4, c5, c6, c7, c8, hv⟩ := mkFiveBand_some _ v h5
    subst hf
    subst hv
    refine ⟨rfl, rfl, ?_, ?_, rfl, rfl⟩
    · intro s hs
      simp only [List.mem_cons, List.not_mem_nil, or_false] at hs
      rcases hs with rfl | rfl | rfl | rfl
      · exact Or.inl (getD_mem_digitColor d1.toNat (by omega))
      · exact Or.inl (getD_mem_digitColor d2.toNat (by omega))
      · exact Or.inl (getD_mem_multiplierColor _ (by omega))
      · exact Or.inr rfl
    · intro s hs
      simp only [List.mem_cons, List.not_mem_nil, or_false] at hs
      rcases hs with rfl | rfl | rfl | rfl | rfl
      · exact Or.inl (getD_mem_digitColor e1.toNat (by omega))
      · exact Or.inl (getD_mem_digitColor e2.toNat (by omega))
      · exact Or.inl (getD_mem_digitColor e3.toNat (by omega))
      · exact Or.inl (getD_mem_multiplierColor _ (by omega))
      · exact Or.inr rfl

/-- C7 witness: the claim applied to the concrete non-null result at 220. -/
theorem C7_witness :
    (["Red", "Red", "Brown", "Gold (±5%)"] : List String).length = 4 ∧
    (["Red", "Red", "Black", "Black", "Gold (±5%)"] : List String).length = 5 ∧
    (∀ s ∈ (["Red", "Red", "Brown", "Gold (±5%)"] : List String),
      s ∈ digitColor ∨ s = "Gold (±5%)") ∧
    (∀ s ∈ (["Red", "Red", "Black", "Black", "Gold (±5%)"] : List String),
      s ∈ digitColor ∨ s = "Gold (±5%)") ∧
    (["Red", "Red", "Brown", "Gold (±5%)"] : List String).getLast? = some "Gold (±5%)" ∧
    (["Red", "Red", "Black", "Black", "Gold (±5%)"] : List String).getLast?
      = some "Gold (±5%)" :=
  C7_theorem (.fin 220) _ _ (by rw [computeResistorColorCode_fin_eq]; decide)

/-- C8 counterexample: for the candidate 220 the handler emits a three-line
markdown block, not the single line the claim describes; the claimed
single-line string is not among the emitted parts. -/
theorem C8_counterexample :
    colorParts [220] =
      ["- 220 Ω:\n  - 4‑band: Red - Red - Brown - Gold (±5%)\n  - 5‑band: Red - Red - Black - Black - Gold (±5%)"] ∧
    "220 Ω: 4-band: Red - Red - Brown - Gold (±5%); 5-band: Red - Red - Black - Black - Gold (±5%)"
      ∉ colorParts [220] := by
  have hcode : computeResistorColorCode (.fin 220) =
      some (["Red", "Red", "Brown", "Gold (±5%)"],
        ["Red", "Red", "Black", "Black", "Gold (±5%)"]) := by
    rw [computeResistorColorCode_fin_eq]; decide
  have h1 : colorParts [220] =
      ["- 220 Ω:\n  - 4‑band: Red - Red - Brown - Gold (±5%)\n  - 5‑band: Red - Red - Black - Black - Gold (±5%)"] := by
    simp only [colorParts, List.filterMap_cons, List.filterMap_nil, hcode, Option.map_some']
    decide
  refine ⟨h1, ?_⟩
  rw [h1]
  decide

/-- C8 (amended): for every candidate on which the code is non-null, the
handler loop emits for it the three-line markdown block
`- <rounded> Ω:` / `  - 4‑band: <colors joined by " - ">` /
`  - 5‑band: <colors joined by " - ">` (a single template string containing two
newlines), in that order. -/
theorem C8_theorem (vals : List ℚ) (val : ℚ) (f v : List String) (hmem : val ∈ vals)
    (h : computeResistorColorCode (.fin val) = some (f, v)) :
    ("- " ++ toString (round val) ++ " Ω:\n  - 4‑band: " ++ String.intercalate " - " f
      ++ "\n  - 5‑band: " ++ String.intercalate " - " v) ∈ colorParts vals := by
  unfold colorParts
  refine List.mem_filterMap.mpr ⟨val, hmem, ?_⟩
  rw [h]
  rfl

/-- C8 witness: the amended claim applied to the candidate list `[220]`. -/
theorem C8_witness :
    ("- " ++ toString (round (220 : ℚ)) ++ " Ω:\n  - 4‑band: "
      ++ String.intercalate " - " ["Red", "Red", "Brown", "Gold (±5%)"]
      ++ "\n  - 5‑band: "
      ++ String.intercalate " - " ["Red", "Red", "Black", "Black", "Gold (±5%)"])
      ∈ colorParts [220] :=
  C8_theorem [220] 220 _ _ (by decide)
    (by rw [computeResistorColorCode_fin_eq]; decide)

/-- C9: both normalization loops of `colorCode` terminate on every positive
input — each divide-by-10 step strictly decreases a value that is at least
100 (resp. 1000), each multiply-by-10 step strictly increases a positive value
below 10 (resp. 100), and the step-indexed loops reach, with some finite fuel,
exactly the values of the recursively defined (hence total) loops. -/
theorem C9_theorem (q : ℚ) (hq : 0 < q) :
    (∀ m : ℚ, 100 ≤ m → m / 10 < m) ∧
    (∀ m : ℚ, 1000 ≤ m → m / 10 < m) ∧
    (∀ m : ℚ, 0 < m → m < 10 → m < m * 10) ∧
    (∀ m : ℚ, 0 < m → m < 100 → m < m * 10) ∧
    (∃ n, loopDivF 100 n q 0 = some (loopDiv 100 (by norm_num) q hq 0).val) ∧
    (∃ n, loopMulF 10 n (loopDiv 100 (by norm_num) q hq 0).val.1
        (loopDiv 100 (by norm_num) q hq 0).val.2
      = some (loopMul 10 (loopDiv 100 (by norm_num) q hq 0).val.1
          (loopDiv 100 (by norm_num) q hq 0).property
          (loopDiv 100 (by norm_num) q hq 0).val.2)) ∧
    (∃ n, loopDivF 1000 n q 0 = some (loopDiv 1000 (by norm_num) q hq 0).val) ∧
    (∃ n, loopMulF 100 n (loopDiv 1000 (by norm_num) q hq 0).val.1
        (loopDiv 1000 (by norm_num) q hq 0).val.2
      = some (loopMul 100 (loopDiv 1000 (by norm_num) q hq 0).val.1
          (loopDiv 1000 (by norm_num) q hq 0).property
          (loopDiv 1000 (by norm_num) q hq 0).val.2)) := by
  refine ⟨?_, ?_, ?_, ?_, ?_, ?_, ?_, ?_⟩
  · intro m hm; linarith
  · intro m hm; linarith
  · intro m hm0 hm10; linarith
  · intro m hm0 hm100; linarith
  · exact ⟨(⌊q⌋).toNat, loopDivF_eq 100 (by norm_num) _ q hq 0 le_rfl⟩
  · exact ⟨(⌈10 / (loopDiv 100 (by norm_num) q hq 0).val.1⌉).toNat,
      loopMulF_eq 10 _ _ (loopDiv 100 (by norm_num) q hq 0).property _ le_rfl⟩
  · exact ⟨(⌊q⌋).toNat, loopDivF_eq 1000 (by norm_num) _ q hq 0 le_rfl⟩
  · exact ⟨(⌈100 / (loopDiv 1000 (by norm_num) q hq 0).val.1⌉).toNat,
      loopMulF_eq 100 _ _ (loopDiv 1000 (by norm_num) q hq 0).property _ le_rfl⟩

/-- C9 witness: termination of the first normalization loop at the concrete
input 220, by the claim's theorem. -/
theorem C9_witness :
    ∃ n, loopDivF 100 n 220 0 = some (loopDiv 100 (by norm_num) 220 (by norm_num) 0).val :=
  (C9_theorem 220 (by norm_num)).2.2.2.2.1

/-- C10: every value returned by `extractOhmValues` is nonnegative — the token
pattern matches unsigned literals only — and on the input "-5" the unsigned
part 5 is extracted rather than -5. -/
theorem C10_theorem :
    (∀ text : String, ∀ v ∈ extractOhmValues text, 0 ≤ v) ∧
    extractOhmValues "-5" = [5] := by
  constructor
  · intro text v hv
    unfold extractOhmValues at hv
    rw [extractLoop_eq_dedup] at hv
    have hvraw := ((dedupLoop_mem _ [] v).mp hv).1
    obtain ⟨t, ht, rfl⟩ := List.mem_map.mp hvraw
    have hts : t ∈ scanAux text.data.length text.data := ht
    exact mul_nonneg (scanAux_nonneg _ _ t hts) (tokenFactor_pos t.2).le
  · decide

/-- C10 witness: the claim applied to the value 5 extracted from "-5". -/
theorem C10_witness : (5 : ℚ) ∈ extractOhmValues "-5" ∧ (0 : ℚ) ≤ 5 :=
  ⟨by decide, C10_theorem.1 "-5" 5 (by decide)⟩

end Vlab
